import Mathlib

/-!
Shallow embedding of the header serialization utilities of the rust-http
repository (file src/http/headers/serialization_utils.rs), together with
proofs of the specified properties.

Rust strings are modelled as lists of unicode scalar values (Lean `Char`),
and byte sequences as lists of `Nat` below 256.  A Rust computation that can
end in a task failure (a panic or abort) is modelled by `RustOutcome`:
`RustOutcome.panic` marks the fatal fault, `RustOutcome.ok` a normal return.
-/

/-- Outcome of a Rust computation: a normal return, or a fatal task failure
(panic / abort). -/
inductive RustOutcome (α : Type) where
  | ok : α → RustOutcome α
  | panic : RustOutcome α
deriving DecidableEq, Repr

/-- Convenience: the character list of a string literal. -/
def str (s : String) : List Char := s.data

/-- UTF-8 encoding of one unicode scalar value, as a list of bytes
(the encoding used by Rust `String::as_bytes` and by `String::len`). -/
def utf8EncodeChar (c : Char) : List Nat :=
  let n := c.toNat
  if n < 128 then [n]
  else if n < 2048 then [192 + n / 64, 128 + n % 64]
  else if n < 65536 then [224 + n / 4096, 128 + n / 64 % 64, 128 + n % 64]
  else [240 + n / 262144, 128 + n / 4096 % 64, 128 + n / 64 % 64, 128 + n % 64]

/-- UTF-8 encoding of a string: the byte sequence `s.as_bytes()` of the Rust
string holding those characters. -/
def utf8 (s : List Char) : List Nat := (s.map utf8EncodeChar).flatten

/-- Rust `char::is_whitespace`: the Unicode White_Space property
(used by `str::trim_left`, which `comma_split` applies to each segment). -/
def rust_is_whitespace (c : Char) : Bool :=
  let n := c.toNat
  (9 ≤ n && n ≤ 13) || n == 32 || n == 133 || n == 160 || n == 5760 ||
  (8192 ≤ n && n ≤ 8202) || n == 8232 || n == 8233 || n == 8239 ||
  n == 8287 || n == 12288

/-- Rust `str::trim_left`: drop the leading run of whitespace characters. -/
def trim_left (s : List Char) : List Char := s.dropWhile rust_is_whitespace

/-- Rust `value.split(',')`: cut the character list at every literal `,`.
Splitting the empty string gives one empty segment, as in Rust. -/
def split_comma : List Char → List (List Char)
  | [] => [[]]
  | c :: rest =>
    if c = ',' then [] :: split_comma rest
    else
      match split_comma rest with
      | [] => [[c]]
      | seg :: segs => (c :: seg) :: segs

/-- Embedding of `comma_split`:
`value.split(',').map(|w| String::from_str(w.trim_left())).collect()`. -/
def comma_split (value : List Char) : List (List Char) :=
  (split_comma value).map trim_left

/-- Embedding of `comma_join`: first value verbatim, then `", "` before each
further value. -/
def comma_join : List (List Char) → List Char
  | [] => []
  | v :: rest => v ++ (rest.map (fun w => ',' :: ' ' :: w)).flatten

/-- Reference join used to state what `split_comma` does: interleave a single
`,` between the segments. -/
def join_comma : List (List Char) → List Char
  | [] => []
  | [x] => x
  | x :: xs => x ++ ',' :: join_comma xs

/-- Embedding of Rust `Char::to_ascii().to_uppercase()` on an ASCII character
(ASCII lookup-table uppercasing). -/
def to_ascii_upper (c : Char) : Char :=
  if 97 ≤ c.toNat ∧ c.toNat ≤ 122 then Char.ofNat (c.toNat - 32) else c

/-- Embedding of Rust `Char::to_ascii().to_lowercase()` on an ASCII character
(ASCII lookup-table lowercasing). -/
def to_ascii_lower (c : Char) : Char :=
  if 65 ≤ c.toNat ∧ c.toNat ≤ 90 then Char.ofNat (c.toNat + 32) else c

/-- Loop of `normalise_header_name`.  The Boolean is the `capitalise` flag,
seeded to `true` and set after each character to whether that (converted)
character had byte value 45 (`-`).  Rust `c.to_ascii()` asserts the character
is ASCII and raises a task failure otherwise, modelled by `RustOutcome.panic`. -/
def normalise_go : Bool → List Char → RustOutcome (List Char)
  | _, [] => .ok []
  | capitalise, c :: rest =>
    if c.toNat ≤ 127 then
      let c2 := if capitalise then to_ascii_upper c else to_ascii_lower c
      match normalise_go (c2.toNat == 45) rest with
      | .ok r => .ok (c2 :: r)
      | .panic => .panic
    else .panic

/-- Embedding of `normalise_header_name`. -/
def normalise_header_name (name : List Char) : RustOutcome (List Char) :=
  normalise_go true name

/-- Specification-side normalisation, written exactly as the spec sentence
reads: capitalise the first character and every character immediately
following a hyphen of the INPUT, lowercase all other characters. -/
def normalise_spec_go : Bool → List Char → List Char
  | _, [] => []
  | capitalise, c :: rest =>
    (if capitalise then to_ascii_upper c else to_ascii_lower c) ::
      normalise_spec_go (c == '-') rest

/-- Specification-side normalisation, seeded to capitalise the first
character. -/
def normalise_spec (name : List Char) : List Char := normalise_spec_go true name

/-- Modelled from the spec: separator and control bytes of the RFC 2616 token
grammar.  Controls are 0 to 31 and 127; the separators are the nineteen
characters listed by RFC 2616, given here by code point. -/
def is_separator_or_ctl (n : Nat) : Bool :=
  n ≤ 31 || n == 127 || n == 40 || n == 41 || n == 60 || n == 62 || n == 64 ||
  n == 44 || n == 59 || n == 58 || n == 92 || n == 34 || n == 47 || n == 91 ||
  n == 93 || n == 63 || n == 61 || n == 123 || n == 125 || n == 32 || n == 9

/-- Modelled from the spec: a character allowed in a token is an ASCII
character that is neither a control nor a separator. -/
def is_token_char (c : Char) : Bool :=
  c.toNat ≤ 127 && !is_separator_or_ctl c.toNat

/-- Modelled from the spec: the external token-grammar predicate `is_token`
of the repository's `rfc2616` module (not present under src).  A token is a
non-empty string all of whose characters are token characters; in
particular no string containing a double quote or whitespace is a token. -/
def is_token (s : List Char) : Bool := !s.isEmpty && s.all is_token_char

/-- Loop body of `push_quoted_string`: backslash-escape every `\` and `"`,
keep every other character verbatim. -/
def escape_chars : List Char → List Char
  | [] => []
  | c :: rest =>
    if c = '\\' ∨ c = '"' then '\\' :: c :: escape_chars rest
    else c :: escape_chars rest

/-- Embedding of `push_quoted_string`: append `"` then the escaped text then
`"` to `s`. -/
def push_quoted_string (s t : List Char) : List Char :=
  s ++ '"' :: (escape_chars t ++ ['"'])

/-- Embedding of `quoted_string`. -/
def quoted_string (s : List Char) : List Char := push_quoted_string [] s

/-- Embedding of `push_maybe_quoted_string`. -/
def push_maybe_quoted_string (s t : List Char) : List Char :=
  if is_token t then s ++ t else push_quoted_string s t

/-- Embedding of `maybe_quoted_string`. -/
def maybe_quoted_string (s : List Char) : List Char :=
  if is_token s then s else quoted_string s

/-- States of the `unquote_string` machine, as in the source. -/
inductive UnquoteState where
  | Start
  | Normal
  | Escaping
  | End
deriving DecidableEq, Repr

/-- Transition loop of `unquote_string`, carrying the accumulated output. -/
def unquote_go : UnquoteState → List Char → List Char → Option (List Char)
  | .Start, _, [] => none
  | .Start, out, c :: rest =>
    if c = '"' then unquote_go .Normal out rest else none
  | .Normal, _, [] => none
  | .Normal, out, c :: rest =>
    if c = '\\' then unquote_go .Escaping out rest
    else if c = '"' then unquote_go .End out rest
    else unquote_go .Normal (out ++ [c]) rest
  | .Escaping, _, [] => none
  | .Escaping, out, c :: rest => unquote_go .Normal (out ++ [c]) rest
  | .End, out, [] => some out
  | .End, _, _ :: _ => none

/-- Embedding of `unquote_string`.  Before the machine runs, the source
executes `output.reserve(s.len() - 2)` on the unsigned byte length of `s`;
for inputs shorter than two bytes the subtraction wraps around and the huge
reservation is a fatal fault (capacity overflow / allocation abort),
modelled by `RustOutcome.panic`. -/
def unquote_string (s : List Char) : RustOutcome (Option (List Char)) :=
  if (utf8 s).length < 2 then .panic
  else .ok (unquote_go .Start [] s)

/-- Embedding of `maybe_unquote_string`. -/
def maybe_unquote_string (s : List Char) : RustOutcome (Option (List Char)) :=
  if is_token s then .ok (some s) else unquote_string s

/-- Embedding of `push_parameter`: append the name, `=`, and the maybe-quoted
value. -/
def push_parameter (s k v : List Char) : List Char :=
  push_maybe_quoted_string (s ++ k ++ ['=']) v

/-- Embedding of `push_parameters`: for each pair in order, append `;` then
the parameter. -/
def push_parameters : List Char → List (List Char × List Char) → List Char
  | s, [] => s
  | s, (k, v) :: ps => push_parameters (push_parameter (s ++ [';']) k v) ps

/-- Byte-level loop of `write_quoted_string`: the writer iterates over
`s.as_bytes()` and writes a backslash byte before every byte equal to
92 (`\`) or 34 (`"`). -/
def write_escape_bytes : List Nat → List Nat
  | [] => []
  | b :: rest =>
    if b = 92 ∨ b = 34 then 92 :: b :: write_escape_bytes rest
    else b :: write_escape_bytes rest

/-- Bytes produced by `write_quoted_string` on an in-memory sink (writes to a
memory buffer always succeed, so the `IoResult` is always `Ok` and the
observable behaviour is the byte sequence written). -/
def write_quoted_string (s : List Char) : List Nat :=
  34 :: (write_escape_bytes (utf8 s) ++ [34])

/-- Bytes produced by `write_maybe_quoted_string` on an in-memory sink. -/
def write_maybe_quoted_string (s : List Char) : List Nat :=
  if is_token s then utf8 s else write_quoted_string s

/-- Bytes produced by `write_parameter` on an in-memory sink: the name bytes,
`=` (byte 61), then the maybe-quoted value. -/
def write_parameter (k v : List Char) : List Nat :=
  utf8 k ++ [61] ++ write_maybe_quoted_string v

/-- Bytes produced by `write_parameters` on an in-memory sink: for each pair
in order, `;` (byte 59) then the parameter. -/
def write_parameters : List (List Char × List Char) → List Nat
  | [] => []
  | (k, v) :: ps => 59 :: (write_parameter k v ++ write_parameters ps)

/-! Helper lemmas about the UTF-8 encoding. -/

theorem utf8_cons (c : Char) (s : List Char) :
    utf8 (c :: s) = utf8EncodeChar c ++ utf8 s := by
  simp [utf8]

theorem utf8_append (s t : List Char) : utf8 (s ++ t) = utf8 s ++ utf8 t := by
  simp [utf8]

theorem utf8EncodeChar_ne_nil (c : Char) : utf8EncodeChar c ≠ [] := by
  unfold utf8EncodeChar
  dsimp only
  split_ifs <;> simp

theorem length_le_length_utf8 (s : List Char) : s.length ≤ (utf8 s).length := by
  induction s with
  | nil => simp [utf8]
  | cons c s ih =>
    rw [utf8_cons, List.length_append, List.length_cons]
    have hpos : 0 < (utf8EncodeChar c).length :=
      List.length_pos.mpr (utf8EncodeChar_ne_nil c)
    omega

theorem char_eq_of_toNat_eq (c d : Char) (h : c.toNat = d.toNat) : c = d := by
  apply Char.eq_of_val_eq
  apply UInt32.eq_of_toBitVec_eq
  exact BitVec.eq_of_toNat_eq h

/-! Transition equations of the unquoting machine, one per source transition. -/

theorem unquote_go_start_quote (out l : List Char) :
    unquote_go .Start out ('"' :: l) = unquote_go .Normal out l := rfl

theorem unquote_go_start_other (out l : List Char) (c : Char) (h : c ≠ '"') :
    unquote_go .Start out (c :: l) = none := by
  rw [unquote_go, if_neg h]

theorem unquote_go_normal_backslash (out l : List Char) :
    unquote_go .Normal out ('\\' :: l) = unquote_go .Escaping out l := rfl

theorem unquote_go_normal_quote (out l : List Char) :
    unquote_go .Normal out ('"' :: l) = unquote_go .End out l := rfl

theorem unquote_go_normal_other (out l : List Char) (c : Char)
    (h1 : c ≠ '\\') (h2 : c ≠ '"') :
    unquote_go .Normal out (c :: l) = unquote_go .Normal (out ++ [c]) l := by
  rw [unquote_go, if_neg h1, if_neg h2]

theorem unquote_go_escaping_cons (out l : List Char) (c : Char) :
    unquote_go .Escaping out (c :: l) = unquote_go .Normal (out ++ [c]) l := rfl

/-! Helper lemmas about the quoting and unquoting machine. -/

theorem unquote_go_escape_chars (t : List Char) :
    ∀ out, unquote_go .Normal out (escape_chars t ++ ['"']) = some (out ++ t) := by
  induction t with
  | nil =>
    intro out
    rw [escape_chars, List.nil_append, unquote_go_normal_quote, List.append_nil]
    rfl
  | cons c rest ih =>
    intro out
    by_cases h : c = '\\' ∨ c = '"'
    · rw [escape_chars, if_pos h]
      rcases h with h1 | h1 <;> subst h1
      · rw [List.cons_append, List.cons_append, unquote_go_normal_backslash,
          unquote_go_escaping_cons, ih, List.append_assoc, List.singleton_append]
      · rw [List.cons_append, List.cons_append, unquote_go_normal_backslash,
          unquote_go_escaping_cons, ih, List.append_assoc, List.singleton_append]
    · push_neg at h
      rw [escape_chars, if_neg (by tauto), List.cons_append,
        unquote_go_normal_other _ _ _ h.1 h.2, ih, List.append_assoc,
        List.singleton_append]

theorem unquote_string_quoted_string (t : List Char) :
    unquote_string (quoted_string t) = .ok (some t) := by
  have hq : quoted_string t = '"' :: (escape_chars t ++ ['"']) := rfl
  have hlen : ¬ (utf8 (quoted_string t)).length < 2 := by
    have h1 := length_le_length_utf8 (quoted_string t)
    have h2 : 2 ≤ (quoted_string t).length := by
      rw [hq]
      simp
    omega
  rw [unquote_string, if_neg hlen, hq, unquote_go_start_quote,
    unquote_go_escape_chars, List.nil_append]

/-- In state Normal or Escaping, the machine accepts only inputs whose last
character is an unescaped closing double quote. -/
theorem unquote_go_accept_last_quote (s : List Char) :
    ∀ st out t, (st = UnquoteState.Normal ∨ st = UnquoteState.Escaping) →
      unquote_go st out s = some t → ∃ pre, s = pre ++ ['"'] := by
  induction s with
  | nil =>
    intro st out t hst h
    rcases hst with h1 | h1 <;> subst h1 <;> exact absurd h (by simp [unquote_go])
  | cons c rest ih =>
    intro st out t hst h
    rcases hst with h1 | h1 <;> subst h1
    · by_cases hb : c = '\\'
      · subst hb
        rw [unquote_go_normal_backslash] at h
        obtain ⟨pre, hpre⟩ := ih .Escaping out t (Or.inr rfl) h
        exact ⟨'\\' :: pre, by rw [hpre, List.cons_append]⟩
      · by_cases hqc : c = '"'
        · subst hqc
          rw [unquote_go_normal_quote] at h
          cases rest with
          | nil => exact ⟨[], rfl⟩
          | cons d rest2 => exact absurd h (by simp [unquote_go])
        · rw [unquote_go_normal_other _ _ _ hb hqc] at h
          obtain ⟨pre, hpre⟩ := ih .Normal (out ++ [c]) t (Or.inl rfl) h
          exact ⟨c :: pre, by rw [hpre, List.cons_append]⟩
    · rw [unquote_go_escaping_cons] at h
      obtain ⟨pre, hpre⟩ := ih .Normal (out ++ [c]) t (Or.inl rfl) h
      exact ⟨c :: pre, by rw [hpre, List.cons_append]⟩

/-- Whenever `unquote_string` succeeds, the input was one double quote, a body,
and a final double quote: nothing before the opening quote and nothing after
the closing one. -/
theorem unquote_string_shape (s : List Char) (t : List Char)
    (h : unquote_string s = .ok (some t)) : ∃ body, s = '"' :: (body ++ ['"']) := by
  rw [unquote_string] at h
  by_cases hlen : (utf8 s).length < 2
  · rw [if_pos hlen] at h
    exact absurd h (by simp)
  · rw [if_neg hlen] at h
    cases s with
    | nil => exact absurd h (by simp [unquote_go])
    | cons c rest =>
      by_cases hc : c = '"'
      · subst hc
        rw [unquote_go_start_quote] at h
        have h2 : unquote_go .Normal [] rest = some t := by injection h
        obtain ⟨pre, hpre⟩ :=
          unquote_go_accept_last_quote rest .Normal [] t (Or.inl rfl) h2
        exact ⟨pre, by rw [hpre]⟩
      · rw [unquote_go_start_other _ _ _ hc] at h
        exact absurd h (by simp)

/-! Helper lemmas for header-name normalisation. -/

theorem char_toNat_ofNat (n : Nat) (h : n < 55296) : (Char.ofNat n).toNat = n := by
  have hv : n.isValidChar := Or.inl h
  rw [Char.ofNat, dif_pos hv]
  rfl

theorem to_ascii_upper_toNat (c : Char) :
    (to_ascii_upper c).toNat =
      if 97 ≤ c.toNat ∧ c.toNat ≤ 122 then c.toNat - 32 else c.toNat := by
  rw [to_ascii_upper]
  split_ifs with h
  · exact char_toNat_ofNat _ (by omega)
  · rfl

theorem to_ascii_lower_toNat (c : Char) :
    (to_ascii_lower c).toNat =
      if 65 ≤ c.toNat ∧ c.toNat ≤ 90 then c.toNat + 32 else c.toNat := by
  rw [to_ascii_lower]
  split_ifs with h
  · exact char_toNat_ofNat _ (by omega)
  · rfl

theorem char_beq_eq_toNat_beq (c d : Char) : (c == d) = (c.toNat == d.toNat) := by
  by_cases h : c = d
  · subst h
    simp
  · have hn : c.toNat ≠ d.toNat := by
      intro he
      exact h (Char.eq_of_val_eq (UInt32.eq_of_toBitVec_eq (by
        have h1 : c.val.toBitVec.toNat = d.val.toBitVec.toNat := he
        exact BitVec.eq_of_toNat_eq h1)))
    simp [h, hn]

/-- The capitalise flag computed by the source (on the case-converted
character) agrees with the flag the spec describes (a hyphen in the input). -/
theorem normalise_flag_eq (capitalise : Bool) (c : Char) :
    (((if capitalise then to_ascii_upper c else to_ascii_lower c).toNat) == 45) =
      (c == '-') := by
  have h45 : ('-' : Char).toNat = 45 := by decide
  rw [char_beq_eq_toNat_beq c '-', h45]
  cases capitalise <;> simp only [if_true, if_false, Bool.false_eq_true,
    to_ascii_upper_toNat, to_ascii_lower_toNat]
  · split_ifs with h
    · have h1 : (c.toNat + 32 == 45) = false := by
        simp only [beq_eq_false_iff_ne, ne_eq]
        omega
      have h2 : (c.toNat == 45) = false := by
        simp only [beq_eq_false_iff_ne, ne_eq]
        omega
      rw [h1, h2]
    · rfl
  · split_ifs with h
    · have h1 : (c.toNat - 32 == 45) = false := by
        simp only [beq_eq_false_iff_ne, ne_eq]
        omega
      have h2 : (c.toNat == 45) = false := by
        simp only [beq_eq_false_iff_ne, ne_eq]
        omega
      rw [h1, h2]
    · rfl

/-- On all-ASCII input the source loop never faults and computes exactly the
spec-worded normalisation. -/
theorem normalise_go_ascii (s : List Char) :
    ∀ capitalise, (∀ c ∈ s, c.toNat ≤ 127) →
      normalise_go capitalise s = .ok (normalise_spec_go capitalise s) := by
  induction s with
  | nil => intro capitalise _; rfl
  | cons c rest ih =>
    intro capitalise h
    have hc : c.toNat ≤ 127 := h c (by simp)
    have hrest : ∀ d ∈ rest, d.toNat ≤ 127 := fun d hd => h d (by simp [hd])
    rw [normalise_go, if_pos hc]
    dsimp only
    rw [normalise_flag_eq, ih _ hrest, normalise_spec_go]

/-- Any input containing a character above ASCII makes the source loop fault,
whatever the current flag. -/
theorem normalise_go_panic (s : List Char) :
    ∀ capitalise, (∃ c ∈ s, 127 < c.toNat) →
      normalise_go capitalise s = .panic := by
  induction s with
  | nil =>
    rintro capitalise ⟨c, hc, _⟩
    exact absurd hc (by simp)
  | cons c rest ih =>
    rintro capitalise ⟨d, hd, hgt⟩
    by_cases hc : c.toNat ≤ 127
    · rw [normalise_go, if_pos hc]
      dsimp only
      rcases List.mem_cons.mp hd with h1 | h1
      · subst h1
        omega
      · rw [ih _ ⟨d, h1, hgt⟩]
    · rw [normalise_go, if_neg hc]

/-! Helper lemmas about tokens and parameter serialization. -/

theorem is_token_quote_cons (xs : List Char) : is_token ('"' :: xs) = false := by
  rw [is_token]
  simp [is_token_char, is_separator_or_ctl]

theorem push_quoted_string_eq (s t : List Char) :
    push_quoted_string s t = s ++ quoted_string t := rfl

theorem push_maybe_quoted_string_eq (s t : List Char) :
    push_maybe_quoted_string s t = s ++ maybe_quoted_string t := by
  rw [push_maybe_quoted_string, maybe_quoted_string]
  split_ifs <;> rfl

theorem push_parameter_eq (s k v : List Char) :
    push_parameter s k v = s ++ k ++ '=' :: maybe_quoted_string v := by
  rw [push_parameter, push_maybe_quoted_string_eq]
  simp

/-- Closed form of `push_parameters`: it appends, for each pair in order, a
semicolon, the name, an equals sign, and the maybe-quoted value. -/
theorem push_parameters_closed (ps : List (List Char × List Char)) :
    ∀ s, push_parameters s ps =
      s ++ (ps.map (fun kv => ';' :: (kv.1 ++ '=' :: maybe_quoted_string kv.2))).flatten := by
  induction ps with
  | nil =>
    intro s
    simp [push_parameters]
  | cons kv ps ih =>
    intro s
    obtain ⟨k, v⟩ := kv
    rw [push_parameters, push_parameter_eq, ih]
    simp

/-! Helper lemmas about comma splitting and joining. -/

theorem split_comma_ne_nil (s : List Char) : split_comma s ≠ [] := by
  cases s with
  | nil => simp [split_comma]
  | cons c rest =>
    rw [split_comma]
    split_ifs
    · simp
    · cases h : split_comma rest <;> simp

theorem join_comma_cons_cons (x y : List Char) (ys : List (List Char)) :
    join_comma (x :: y :: ys) = x ++ ',' :: join_comma (y :: ys) := by
  rw [join_comma]
  simp

theorem join_comma_split_comma (s : List Char) :
    join_comma (split_comma s) = s := by
  induction s with
  | nil => rfl
  | cons c rest ih =>
    rw [split_comma]
    by_cases hc : c = ','
    · subst hc
      rw [if_pos rfl]
      cases h : split_comma rest with
      | nil => exact absurd h (split_comma_ne_nil rest)
      | cons a as =>
        rw [h] at ih
        rw [join_comma_cons_cons, List.nil_append, ih]
    · rw [if_neg hc]
      cases h : split_comma rest with
      | nil => exact absurd h (split_comma_ne_nil rest)
      | cons a as =>
        rw [h] at ih
        cases as with
        | nil =>
          rw [join_comma] at ih
          rw [join_comma, ih]
        | cons b bs =>
          rw [join_comma_cons_cons] at ih
          rw [join_comma_cons_cons, List.cons_append, ih]

theorem split_comma_no_comma (s : List Char) :
    ∀ seg ∈ split_comma s, ',' ∉ seg := by
  induction s with
  | nil =>
    intro seg hseg
    rw [split_comma, List.mem_singleton] at hseg
    subst hseg
    simp
  | cons c rest ih =>
    intro seg hseg
    rw [split_comma] at hseg
    by_cases hc : c = ','
    · subst hc
      rw [if_pos rfl] at hseg
      rcases List.mem_cons.mp hseg with h1 | h1
      · subst h1
        simp
      · exact ih seg h1
    · rw [if_neg hc] at hseg
      cases h : split_comma rest with
      | nil => exact absurd h (split_comma_ne_nil rest)
      | cons a as =>
        rw [h] at hseg
        rcases List.mem_cons.mp hseg with h1 | h1
        · subst h1
          intro hmem
          rcases List.mem_cons.mp hmem with h2 | h2
          · exact hc h2.symm
          · exact ih a (h ▸ List.mem_cons_self a as) h2
        · exact ih seg (h ▸ List.mem_cons_of_mem a h1)

theorem takeWhile_append_trim_left (w : List Char) :
    w.takeWhile rust_is_whitespace ++ trim_left w = w := by
  rw [trim_left]
  exact List.takeWhile_append_dropWhile rust_is_whitespace w

theorem trim_left_eq_self (x : List Char)
    (h : ∀ c, x.head? = some c → rust_is_whitespace c = false) :
    trim_left x = x := by
  cases x with
  | nil => rfl
  | cons c cs =>
    rw [trim_left, List.dropWhile_cons, h c rfl]
    simp

theorem split_comma_append_no_comma (a : List Char) :
    ∀ s, ',' ∉ a →
      split_comma (a ++ s) = (split_comma s).modifyHead (a ++ ·) := by
  induction a with
  | nil =>
    intro s _
    rw [List.nil_append]
    cases h : split_comma s with
    | nil => exact absurd h (split_comma_ne_nil s)
    | cons x xs => simp
  | cons c a2 ih =>
    intro s hmem
    have hc : ¬ c = ',' := fun h => hmem (h ▸ List.mem_cons_self c a2)
    have ha2 : ',' ∉ a2 := fun h => hmem (List.mem_cons_of_mem c h)
    rw [List.cons_append, split_comma, if_neg hc, ih s ha2]
    cases h : split_comma s with
    | nil => exact absurd h (split_comma_ne_nil s)
    | cons x xs => simp

theorem comma_join_cons_cons (x y : List Char) (ys : List (List Char)) :
    comma_join (x :: y :: ys) = x ++ ',' :: ' ' :: comma_join (y :: ys) := by
  simp [comma_join]

/-- Round trip of the comma list codec: joining with `", "` and splitting
again recovers the list whenever no element contains a comma and no element
begins with a whitespace character. -/
theorem comma_split_comma_join (xs : List (List Char)) :
    xs ≠ [] →
    (∀ x ∈ xs, ',' ∉ x ∧ ∀ c, x.head? = some c → rust_is_whitespace c = false) →
    comma_split (comma_join xs) = xs := by
  induction xs with
  | nil => intro hne _; exact absurd rfl hne
  | cons x xs ih =>
    intro _ h
    obtain ⟨hx1, hx2⟩ := h x (List.mem_cons_self x xs)
    cases xs with
    | nil =>
      have hj : comma_join [x] = x := by simp [comma_join]
      rw [hj, comma_split]
      have hs : split_comma x = [x] := by
        have h0 := split_comma_append_no_comma x [] hx1
        rw [List.append_nil] at h0
        rw [h0]
        simp [split_comma]
      rw [hs]
      simp [trim_left_eq_self x hx2]
    | cons y ys =>
      have hrest : ∀ z ∈ y :: ys,
          ',' ∉ z ∧ ∀ c, z.head? = some c → rust_is_whitespace c = false :=
        fun z hz => h z (List.mem_cons_of_mem x hz)
      rw [comma_join_cons_cons, comma_split,
        split_comma_append_no_comma x _ hx1]
      have h1 : split_comma (',' :: ' ' :: comma_join (y :: ys)) =
          [] :: split_comma (' ' :: comma_join (y :: ys)) := by
        rw [split_comma, if_pos rfl]
      have h2 : split_comma (' ' :: comma_join (y :: ys)) =
          (split_comma (comma_join (y :: ys))).modifyHead (fun w => ' ' :: w) := by
        have h3 := split_comma_append_no_comma [' '] (comma_join (y :: ys)) (by simp)
        simpa using h3
      rw [h1, h2]
      have hih := ih (by simp) hrest
      rw [comma_split] at hih
      cases hL : split_comma (comma_join (y :: ys)) with
      | nil => exact absurd hL (split_comma_ne_nil _)
      | cons a as =>
        rw [hL] at hih
        have hsp : rust_is_whitespace ' ' = true := by decide
        have htr : trim_left (' ' :: a) = trim_left a := by
          rw [trim_left, List.dropWhile_cons, hsp]
          rfl
        simp only [List.modifyHead, List.map_cons, List.append_nil, htr,
          trim_left_eq_self x hx2]
        simp only [List.map_cons] at hih
        rw [hih]

/-! Helper lemmas relating the byte-level writer loop to the character-level
string-building loop. -/

theorem write_escape_bytes_append (a b : List Nat) :
    write_escape_bytes (a ++ b) =
      write_escape_bytes a ++ write_escape_bytes b := by
  induction a with
  | nil => rfl
  | cons x a2 ih =>
    rw [List.cons_append, write_escape_bytes, write_escape_bytes]
    split_ifs with h
    · rw [ih, List.cons_append, List.cons_append]
    · rw [ih, List.cons_append]

theorem write_escape_bytes_id (bs : List Nat)
    (h : ∀ b ∈ bs, ¬ (b = 92 ∨ b = 34)) : write_escape_bytes bs = bs := by
  induction bs with
  | nil => rfl
  | cons x b2 ih =>
    rw [write_escape_bytes, if_neg (h x (List.mem_cons_self x b2)),
      ih fun b hb => h b (List.mem_cons_of_mem x hb)]

theorem utf8EncodeChar_ascii (c : Char) (h : c.toNat < 128) :
    utf8EncodeChar c = [c.toNat] := by
  rw [utf8EncodeChar]
  rw [if_pos h]

theorem utf8EncodeChar_high (c : Char) (h : 128 ≤ c.toNat) :
    ∀ b ∈ utf8EncodeChar c, 128 ≤ b := by
  rw [utf8EncodeChar]
  split_ifs with h1 h2 h3 <;> intro b hb <;> simp at hb
  · omega
  · rcases hb with rfl | rfl <;> omega
  · rcases hb with rfl | rfl | rfl <;> omega
  · rcases hb with rfl | rfl | rfl | rfl <;> omega

/-- The per-byte escaping of the writer computes the UTF-8 encoding of the
per-character escaping of the string builder. -/
theorem write_escape_bytes_utf8 (s : List Char) :
    write_escape_bytes (utf8 s) = utf8 (escape_chars s) := by
  induction s with
  | nil => rfl
  | cons c rest ih =>
    rw [utf8_cons, write_escape_bytes_append, ih, escape_chars]
    by_cases h : c = '\\' ∨ c = '"'
    · rw [if_pos h, utf8_cons, utf8_cons]
      rcases h with h1 | h1 <;> subst h1
      · rw [show write_escape_bytes (utf8EncodeChar '\\') =
            utf8EncodeChar '\\' ++ utf8EncodeChar '\\' from by decide,
          List.append_assoc]
      · rw [show write_escape_bytes (utf8EncodeChar '"') =
            utf8EncodeChar '\\' ++ utf8EncodeChar '"' from by decide,
          List.append_assoc]
    · rw [if_neg h, utf8_cons]
      push_neg at h
      congr 1
      apply write_escape_bytes_id
      by_cases hc : c.toNat < 128
      · rw [utf8EncodeChar_ascii c hc]
        intro b hb
        rw [List.mem_singleton] at hb
        subst hb
        rintro (h92 | h34)
        · exact h.1 (char_eq_of_toNat_eq c '\\' (by rw [h92]; rfl))
        · exact h.2 (char_eq_of_toNat_eq c '"' (by rw [h34]; rfl))
      · intro b hb
        have := utf8EncodeChar_high c (by omega) b hb
        omega

theorem utf8_quoted_string (s : List Char) :
    utf8 (quoted_string s) = write_quoted_string s := by
  have hq : quoted_string s = '"' :: (escape_chars s ++ ['"']) := rfl
  rw [hq, utf8_cons, utf8_append, write_quoted_string, write_escape_bytes_utf8]
  rfl

theorem utf8_maybe_quoted_string (s : List Char) :
    utf8 (maybe_quoted_string s) = write_maybe_quoted_string s := by
  rw [maybe_quoted_string, write_maybe_quoted_string]
  split_ifs
  · rfl
  · exact utf8_quoted_string s

theorem utf8_push_parameter (s k v : List Char) :
    utf8 (push_parameter s k v) = utf8 s ++ write_parameter k v := by
  rw [push_parameter_eq, utf8_append, utf8_append, utf8_cons,
    utf8_maybe_quoted_string, write_parameter,
    show utf8EncodeChar '=' = [61] from by decide]
  simp

theorem utf8_push_parameters (ps : List (List Char × List Char)) :
    ∀ s, utf8 (push_parameters s ps) = utf8 s ++ write_parameters ps := by
  induction ps with
  | nil =>
    intro s
    rw [push_parameters, write_parameters, List.append_nil]
  | cons kv ps ih =>
    intro s
    obtain ⟨k, v⟩ := kv
    rw [push_parameters, write_parameters, ih, utf8_push_parameter,
      utf8_append, show utf8 [';'] = [59] from by decide]
    simp

/-! Claim theorems. -/

/-- C1: for every string t, unquoting the quoted form of t returns exactly t.
Quoting (wrap in double quotes, backslash-escape every literal backslash and
double quote, keep every other character verbatim) followed by unquoting is
lossless for every input, including inputs containing double quotes and
backslashes. -/
theorem C1_unquote_quoted_roundtrip (t : List Char) :
    unquote_string (quoted_string t) = .ok (some t) :=
  unquote_string_quoted_string t

/-- C2, code evaluated at the failing inputs: on the empty string and on a
lone double quote the source does not return the absent result.  The unsigned
subtraction s.len() - 2 performed before the loop wraps around and the
resulting huge reservation is a fatal fault. -/
theorem C2_unquote_short_input_faults :
    unquote_string (str "") = .panic ∧ unquote_string (str "\"") = .panic := by
  constructor <;> decide

/-- C3: unquote_string succeeds only when the entire input is exactly one
quoted-string token, an opening quote, a body and a closing quote with
nothing before or after; and on the listed concrete inputs it returns None
for bare text, the body for a proper quoted string, and None for a missing
closing quote, a leading space, a trailing space, or a second quoted string
after the first. -/
theorem C3_unquote_exactly_one_token :
    (∀ s t, unquote_string s = .ok (some t) →
      ∃ body, s = '"' :: (body ++ ['"'])) ∧
    unquote_string (str "bar") = .ok none ∧
    unquote_string (str "\"bar\"") = .ok (some (str "bar")) ∧
    unquote_string (str "\"bar") = .ok none ∧
    unquote_string (str " \"bar\"") = .ok none ∧
    unquote_string (str "\"bar\" ") = .ok none ∧
    unquote_string (str "\"bar\" \"baz\"") = .ok none := by
  refine ⟨unquote_string_shape, ?_, ?_, ?_, ?_, ?_, ?_⟩ <;> decide

/-- Witness for C3: the shape part applied at a concrete accepted input. -/
theorem C3_witness : ∃ body, str "\"bar\"" = '"' :: (body ++ ['"']) :=
  C3_unquote_exactly_one_token.1 (str "\"bar\"") (str "bar") (by decide)

/-- C4: for every string t, maybe_unquote_string recovers t from
maybe_quoted_string t: when t is a token the value passes through both
directions unchanged, and otherwise it is quoted and then correctly unquoted
(the modelled is_token classifies no string containing a double quote as a
token). -/
theorem C4_maybe_roundtrip (t : List Char) :
    maybe_unquote_string (maybe_quoted_string t) = .ok (some t) := by
  by_cases h : is_token t
  · rw [maybe_quoted_string, if_pos h, maybe_unquote_string, if_pos h]
  · rw [maybe_quoted_string, if_neg h, maybe_unquote_string]
    have hq : quoted_string t = '"' :: (escape_chars t ++ ['"']) := rfl
    have hf : ¬ is_token (quoted_string t) = true := by
      rw [hq, is_token_quote_cons]
      simp
    rw [if_neg hf]
    exact unquote_string_quoted_string t

/-- C5 counterexample: on the non-ASCII name used by the repository's own
failing test, normalise_header_name raises a fatal fault (a task failure,
modelled as the panic outcome) instead of returning an absent or typed-error
result. -/
theorem C5_counterexample :
    normalise_header_name (str "foö-bar") = .panic := by decide

/-- C5 amended: on every name containing a character outside the ASCII range,
normalise_header_name raises a fatal fault (task failure), modelled as the
panic outcome; no value is returned for such input, and the repository's own
should-fail test documents this behaviour. -/
theorem C5_nonascii_faults (s : List Char) (h : ∃ c ∈ s, 127 < c.toNat) :
    normalise_header_name s = .panic :=
  normalise_go_panic s true h

/-- Witness for C5: the amended theorem applied at a concrete non-ASCII
name. -/
theorem C5_witness : normalise_header_name (str "é") = .panic :=
  C5_nonascii_faults (str "é") ⟨'é', by decide, by decide⟩

/-- C6: on every all-ASCII name, normalise_header_name returns the string
obtained by capitalising the first character and every character immediately
following a hyphen of the input and lowercasing every other character; in
particular it sends "foo-bar" and "FOO-BAR" to "Foo-Bar". -/
theorem C6_normalise_ascii :
    (∀ s, (∀ c ∈ s, c.toNat ≤ 127) →
      normalise_header_name s = .ok (normalise_spec s)) ∧
    normalise_header_name (str "foo-bar") = .ok (str "Foo-Bar") ∧
    normalise_header_name (str "FOO-BAR") = .ok (str "Foo-Bar") := by
  refine ⟨fun s h => normalise_go_ascii s true h, ?_, ?_⟩ <;> decide

/-- Witness for C6: the general part applied at a concrete ASCII name. -/
theorem C6_witness :
    normalise_header_name (str "content-TYPE") =
      .ok (normalise_spec (str "content-TYPE")) :=
  C6_normalise_ascii.1 (str "content-TYPE") (by decide)

/-- C7: push_parameters appends, for each pair of the list in order, a
semicolon, the name, an equals sign, and the value quoted exactly when it is
not a valid token; zero parameters leave the string unchanged; and on the
concrete example it produces foo;bar=baz;quux="fuzz zee". -/
theorem C7_push_parameters :
    (∀ s, push_parameters s [] = s) ∧
    (∀ s ps, push_parameters s ps =
      s ++ (ps.map
        (fun kv => ';' :: (kv.1 ++ '=' :: maybe_quoted_string kv.2))).flatten) ∧
    (∀ v, maybe_quoted_string v = if is_token v then v else quoted_string v) ∧
    push_parameters (str "foo")
        [(str "bar", str "baz"), (str "quux", str "fuzz zee")] =
      str "foo;bar=baz;quux=\"fuzz zee\"" := by
  refine ⟨fun s => rfl, fun s ps => push_parameters_closed ps s,
    fun v => rfl, ?_⟩
  decide

/-- C8: comma_split splits its input at every literal comma (the raw segments
carry no comma and rejoining them with single commas restores the input),
strips exactly the leading whitespace run of each segment so that trailing
whitespace survives, and always yields at least one segment, the empty input
giving exactly one empty segment. -/
theorem C8_comma_split :
    comma_split (str "") = [str ""] ∧
    (∀ s, comma_split s ≠ []) ∧
    (∀ s, join_comma (split_comma s) = s) ∧
    (∀ s seg, seg ∈ split_comma s → ',' ∉ seg) ∧
    (∀ w, w.takeWhile rust_is_whitespace ++ trim_left w = w) ∧
    comma_split (str " foo;q=0.8 , bar/* ") =
      [str "foo;q=0.8 ", str "bar/* "] := by
  refine ⟨by decide, ?_, join_comma_split_comma,
    fun s seg hmem => split_comma_no_comma s seg hmem,
    takeWhile_append_trim_left, by decide⟩
  intro s h
  exact split_comma_ne_nil s (List.map_eq_nil_iff.mp h)

/-- Witness for C8: the comma-freeness part applied at a concrete split. -/
theorem C8_witness : ',' ∉ str "foo" :=
  C8_comma_split.2.2.2.1 (str "foo,bar") (str "foo") (by decide)

/-- C9: on an in-memory sink the byte-writing serializers produce exactly the
byte sequence that the pure string-building serializers append: for every
name, value and parameter list, the UTF-8 bytes of what push_quoted_string,
push_maybe_quoted_string, push_parameter and push_parameters append equal
the bytes written by write_quoted_string, write_maybe_quoted_string,
write_parameter and write_parameters, although the writer escapes per byte
and the builder per character. -/
theorem C9_writer_builder_agree :
    (∀ s t, utf8 (push_quoted_string s t) = utf8 s ++ write_quoted_string t) ∧
    (∀ s t, utf8 (push_maybe_quoted_string s t) =
      utf8 s ++ write_maybe_quoted_string t) ∧
    (∀ s k v, utf8 (push_parameter s k v) = utf8 s ++ write_parameter k v) ∧
    (∀ s ps, utf8 (push_parameters s ps) = utf8 s ++ write_parameters ps) := by
  refine ⟨?_, ?_, utf8_push_parameter, fun s ps => utf8_push_parameters ps s⟩
  · intro s t
    rw [push_quoted_string_eq, utf8_append, utf8_quoted_string]
  · intro s t
    rw [push_maybe_quoted_string_eq, utf8_append, utf8_maybe_quoted_string]

/-- C10: for every non-empty list of strings in which no element contains a
comma and no element begins with a whitespace character, splitting the comma
join returns exactly the original list. -/
theorem C10_split_join_roundtrip (xs : List (List Char)) (hne : xs ≠ [])
    (h : ∀ x ∈ xs, ',' ∉ x ∧
      ∀ c, x.head? = some c → rust_is_whitespace c = false) :
    comma_split (comma_join xs) = xs :=
  comma_split_comma_join xs hne h

/-- Witness for C10: the round trip applied at a concrete list. -/
theorem C10_witness :
    comma_split (comma_join [str "en;q=0.8", str "en_AU", str "text/html"]) =
      [str "en;q=0.8", str "en_AU", str "text/html"] :=
  C10_split_join_roundtrip [str "en;q=0.8", str "en_AU", str "text/html"]
    (by decide) (by decide)
